import Mathlib

/-!
Verification of the `mom` base-N codec family (`mom/codec/base85.py`,
`mom/codec/_alt_base.py`) against its natural-language specification.

Byte strings are modelled as `List Nat` (each entry one byte value) and
Python exceptions as an explicit error kind returned through `Except`.
-/

set_option maxRecDepth 100000

namespace Mom

/-- The Python exception classes raised by the codec functions. -/
inductive PyErr
  | typeError
  | valueError
  | overflowError
  | keyError
deriving DecidableEq, Repr

instance {ε α : Type} [DecidableEq ε] [DecidableEq α] : DecidableEq (Except ε α) :=
  fun x y =>
  match x, y with
  | .ok a, .ok b =>
      if h : a = b then isTrue (h ▸ rfl)
      else isFalse (fun hc => h (Except.ok.inj hc))
  | .error a, .error b =>
      if h : a = b then isTrue (h ▸ rfl)
      else isFalse (fun hc => h (Except.error.inj hc))
  | .ok _, .error _ => isFalse (fun hc => Except.noConfusion hc)
  | .error _, .ok _ => isFalse (fun hc => Except.noConfusion hc)

/-- A byte string: a list of byte values. -/
abbrev Bytes := List Nat

/-- Membership of a byte in Python's regex class `\s` (space, TAB, LF, VT, FF, CR). -/
def isWs (c : Nat) : Bool := c == 32 || (9 ≤ c && c ≤ 13)

/-- `re.sub(WHITESPACE_PATTERN, b'', s)`: delete every whitespace byte of `s`. -/
def stripWs (s : Bytes) : Bytes := s.filter (fun c => !isWs c)

/-- Symbol-to-ordinal lookup in a charset: the `*_ORDS` dictionaries of the
source, realised as the index of the first occurrence of the symbol. -/
def ordIn : List Nat → Nat → Option Nat
  | [], _ => none
  | d :: ds, c => if d = c then some 0 else (ordIn ds c).map (· + 1)

/-- `ASCII85_CHARS`: the 85 consecutive ASCII codes 33 ('!') .. 117 ('u'). -/
def ASCII85_CHARS : List Nat := (List.range 85).map (· + 33)

/-- `RFC1924_CHARS`: digits, uppercase, lowercase, then the 23 RFC1924
punctuation symbols, in the fixed source order. -/
def RFC1924_CHARS : List Nat :=
  (List.range 10).map (· + 48) ++ (List.range 26).map (· + 65) ++
  (List.range 26).map (· + 97) ++
  [33, 35, 36, 37, 38, 40, 41, 42, 43, 45, 59, 60, 61, 62, 63, 64,
   94, 95, 96, 123, 124, 125, 126]

/-- `UINT128_MAX = (1 << 128) - 1`. -/
def UINT128_MAX : Nat := 2 ^ 128 - 1

/-- `_check_compact_char_occurrence`: scan the text keeping a counter of
symbols seen since the last compaction char; a compaction char is legal only
when that counter is a multiple of 5 (the counter resets to 0 after it). -/
def checkCompact (z : Nat) : Bytes → Nat → Bool
  | [], _ => true
  | c :: cs, counter =>
    if c = z then decide (counter % 5 = 0) && checkCompact z cs 0
    else checkCompact z cs (counter + 1)

/-- `encoded.replace(_compact_char, EXCLAMATION_CHUNK)`: expand each
compaction char into the five-symbol all-zero group `'!!!!!'`. -/
def expandZ (z : Nat) : Bytes → Bytes
  | [] => []
  | c :: cs => (if c = z then [33, 33, 33, 33, 33] else [c]) ++ expandZ z cs

/-- `encoded.replace(EXCLAMATION_CHUNK, _compact_char)`: textual leftmost
non-overlapping replacement of `'!!!!!'` by the compaction char. -/
def replaceExcl (z : Nat) : Bytes → Bytes
  | [] => []
  | 33 :: 33 :: 33 :: 33 :: 33 :: rest => z :: replaceExcl z rest
  | c :: rest => c :: replaceExcl z rest

/-- `unpack('>LLL...', bytes)`: cut the byte string into big-endian unsigned
32-bit group values. -/
def unpack32s : Bytes → List Nat
  | b0 :: b1 :: b2 :: b3 :: rest =>
      (((b0 * 256 + b1) * 256 + b2) * 256 + b3) :: unpack32s rest
  | _ => []

/-- `pack('>L', u)`: the four big-endian bytes of a 32-bit group value. -/
def pack32 (u : Nat) : Bytes :=
  [u / 2 ^ 24 % 256, u / 2 ^ 16 % 256, u / 2 ^ 8 % 256, u % 256]

/-- The five base-85 digits (most significant first) emitted for one 32-bit
group by `b85encode`, via the unrolled divisions of the source. -/
def encode5 (chars : List Nat) (x : Nat) : Bytes :=
  [chars.getD (x / 85 ^ 4) 0,
   chars.getD (x / 85 ^ 3 % 85) 0,
   chars.getD (x / 85 ^ 2 % 85) 0,
   chars.getD (x / 85 % 85) 0,
   chars.getD (x % 85) 0]

/-- Concatenated base-85 digits of all 32-bit groups of a (padded) byte string. -/
def encodeGroups (chars : List Nat) (padded : Bytes) : Bytes :=
  ((unpack32s padded).map (encode5 chars)).flatten

/-- `b85encode(raw_bytes, prefix, suffix, _padding, _base85_chars,
_compact_zero, _compact_char)` of `mom/codec/base85.py`. -/
def b85encode (raw pre suf : Bytes) (padding : Bool) (chars : List Nat)
    (compactZero : Bool) (compactChar : Nat) : Bytes :=
  let r := raw.length % 4
  let paddingSize := if r = 0 then 0 else 4 - r
  let padded := raw ++ List.replicate paddingSize 0
  let ascii := encodeGroups chars padded
  let ascii2 := if paddingSize ≠ 0 ∧ padding = false then
      ascii.take (ascii.length - paddingSize) else ascii
  let enc := if compactZero then replaceExcl compactChar ascii2 else ascii2
  pre ++ enc ++ suf

/-- `b85encode` at its default arguments (ASCII85, zero-compaction on). -/
def b85encodeDefault (raw : Bytes) : Bytes :=
  b85encode raw [] [] false ASCII85_CHARS true 122

/-- One iteration of the decode chunk loop: the unrolled base-85 fold of five
symbols, with `KeyError` re-raised as `OverflowError` and the 32-bit range
check. -/
def chunkValue (ords : Nat → Option Nat) (v w x y z : Nat) : Except PyErr Nat :=
  match (ords v, ords w, ords x, ords y, ords z) with
  | (some a, some b, some c, some d, some e) =>
      let u := ((((a * 85 + b) * 85 + c) * 85 + d) * 85 + e)
      if u > 4294967295 then .error .overflowError else .ok u
  | _ => .error .overflowError

/-- The decode chunk loop of `b85decode`: each 5-symbol chunk becomes four
big-endian bytes of its 32-bit value. -/
def decodeChunks (ords : Nat → Option Nat) : Bytes → Except PyErr Bytes
  | [] => .ok []
  | v :: w :: x :: y :: z :: rest =>
    match chunkValue ords v w x y z with
    | .error e => .error e
    | .ok u =>
      match decodeChunks ords rest with
      | .error e => .error e
      | .ok bs => .ok (pack32 u ++ bs)
  | _ => .error .valueError

/-- `encoded.startswith(prefix)`-guarded strip of a leading marker. -/
def stripPre (p s : Bytes) : Bytes :=
  if p ≠ [] ∧ s.take p.length = p then s.drop p.length else s

/-- `encoded.endswith(suffix)`-guarded strip of a trailing marker. -/
def stripSuf (q s : Bytes) : Bytes :=
  if q ≠ [] ∧ q.length ≤ s.length ∧ s.drop (s.length - q.length) = q then
    s.take (s.length - q.length)
  else s

/-- `b85decode(encoded, prefix, suffix, _base85_ords, _base85_chars,
_ignore_pattern, _uncompact_zero, _compact_char)` of `mom/codec/base85.py`. -/
def b85decode (encoded pre suf : Bytes) (ords : Nat → Option Nat)
    (chars : List Nat) (uncompactZero : Bool) (z : Nat) : Except PyErr Bytes :=
  let s1 := stripWs encoded
  let s2 := stripSuf suf (stripPre pre s1)
  if uncompactZero = true ∧ checkCompact z s2 0 = false then .error .valueError
  else
    let s3 := if uncompactZero then expandZ z s2 else s2
    let r := s3.length % 5
    let padSize := if r = 0 then 0 else 5 - r
    let padded := s3 ++ List.replicate padSize (chars.getD 84 0)
    match decodeChunks ords padded with
    | .error e => .error e
    | .ok bs => .ok (bs.take (bs.length - padSize))

/-- `b85decode` at its default arguments (ASCII85, zero-uncompaction on). -/
def b85decodeDefault (s : Bytes) : Except PyErr Bytes :=
  b85decode s [] [] (ordIn ASCII85_CHARS) ASCII85_CHARS true 122

/-- `ipv6_b85encode(uint128)` of `mom/codec/base85.py`: range checks, then the
unrolled 20-digit base-85 extraction over the RFC1924 charset. -/
def ipv6_b85encode (v : Int) : Except PyErr Bytes :=
  if v < 0 then .error .valueError
  else if v > ((2 : Int) ^ 128 - 1) then .error .overflowError
  else
    let n := v.toNat
    .ok [RFC1924_CHARS.getD (n / 85 ^ 19) 0,
         RFC1924_CHARS.getD (n / 85 ^ 18 % 85) 0,
         RFC1924_CHARS.getD (n / 85 ^ 17 % 85) 0,
         RFC1924_CHARS.getD (n / 85 ^ 16 % 85) 0,
         RFC1924_CHARS.getD (n / 85 ^ 15 % 85) 0,
         RFC1924_CHARS.getD (n / 85 ^ 14 % 85) 0,
         RFC1924_CHARS.getD (n / 85 ^ 13 % 85) 0,
         RFC1924_CHARS.getD (n / 85 ^ 12 % 85) 0,
         RFC1924_CHARS.getD (n / 85 ^ 11 % 85) 0,
         RFC1924_CHARS.getD (n / 85 ^ 10 % 85) 0,
         RFC1924_CHARS.getD (n / 85 ^ 9 % 85) 0,
         RFC1924_CHARS.getD (n / 85 ^ 8 % 85) 0,
         RFC1924_CHARS.getD (n / 85 ^ 7 % 85) 0,
         RFC1924_CHARS.getD (n / 85 ^ 6 % 85) 0,
         RFC1924_CHARS.getD (n / 85 ^ 5 % 85) 0,
         RFC1924_CHARS.getD (n / 85 ^ 4 % 85) 0,
         RFC1924_CHARS.getD (n / 85 ^ 3 % 85) 0,
         RFC1924_CHARS.getD (n / 85 ^ 2 % 85) 0,
         RFC1924_CHARS.getD (n / 85 % 85) 0,
         RFC1924_CHARS.getD (n % 85) 0]

/-- The left-to-right base-85 fold `uint128 = uint128 * 85 + ords[char]`, in
the `Option` monad so that a missing symbol is a `KeyError`. -/
def foldOrds (ords : Nat → Option Nat) (s : Bytes) : Option Nat :=
  s.foldl (fun acc c => acc.bind (fun a => (ords c).map (fun d => a * 85 + d)))
    (some 0)

/-- `ipv6_b85decode(encoded)` of `mom/codec/base85.py`: a bare 20-character
length check, then the base-85 fold with no 128-bit range check; an unknown
symbol propagates the raw `KeyError` of the ordinal dictionary. -/
def ipv6_b85decode (s : Bytes) : Except PyErr Nat :=
  if s.length ≠ 20 then .error .valueError
  else
    match foldOrds (ordIn RFC1924_CHARS) s with
    | none => .error .keyError
    | some n => .ok n

/-- `ipv6_b85decode_naive(encoded)` of `mom/codec/_alt_base.py`: strips
whitespace, checks the 20-symbol length, folds (re-raising `KeyError` as
`OverflowError`), and rejects results above `UINT128_MAX`. -/
def ipv6_b85decode_naive (s : Bytes) : Except PyErr Nat :=
  let t := stripWs s
  if t.length ≠ 20 then .error .valueError
  else
    match foldOrds (ordIn RFC1924_CHARS) t with
    | none => .error .overflowError
    | some n => if n > UINT128_MAX then .error .overflowError else .ok n

/-- The compaction-alignment rule in the spec's intended sense: every
occurrence of the compaction char sits at a position that is a multiple of 5
once the compaction chars before it are expanded to their five symbols. -/
def zAligned (z : Nat) (s : Bytes) : Prop :=
  ∀ u v : Bytes, s = u ++ z :: v → (expandZ z u).length % 5 = 0

/-- The `while number > 0` digit loop of `b58encode_naive`/`b62encode_naive`:
most-significant-first base-`B` digits of `n` (empty for 0), written with a
structural fuel argument; `digitsBE` supplies `n` itself as sufficient fuel. -/
def digitsF (B : Nat) : Nat → Nat → List Nat
  | 0, _ => []
  | fuel + 1, n => if n = 0 then [] else digitsF B fuel (n / B) ++ [n % B]

/-- Most-significant-first base-`B` digits of `n`; `[]` for `n = 0`. -/
def digitsBE (B n : Nat) : List Nat := digitsF B n n

/-- Modelled from the spec: the external primitive `bytes_to_uint` of
`mom.codec.integer` (§2 BigIntConversion) — interpret a byte string as a
big-endian unsigned integer. -/
def bytes_to_uint (s : Bytes) : Nat := s.foldl (fun a c => a * 256 + c) 0

/-- Modelled from the spec: the external primitive `uint_to_bytes` of
`mom.codec.integer` (§2 BigIntConversion, §4.2 step 3) — minimal big-endian
byte string of an unsigned integer, a single zero byte for 0. -/
def uint_to_bytes (n : Nat) : Bytes := if n = 0 then [0] else digitsBE 256 n

/-- Modelled from the spec: `leading(pred, seq)` of `mom.functional`
(§4.2, "count the number of leading 0x00 bytes") — the length of the longest
prefix whose elements satisfy the predicate. -/
def countLeading (p : Nat → Bool) (s : Bytes) : Nat := (s.takeWhile p).length

/-- Modelled from the spec: `ASCII58_CHARSET` of `mom.codec.base58` (§4.1) —
digits and letters in natural ASCII order excluding the visually ambiguous
`0`, `O`, `I`, `l`. -/
def ASCII58_CHARSET : List Nat :=
  [49, 50, 51, 52, 53, 54, 55, 56, 57,
   65, 66, 67, 68, 69, 70, 71, 72, 74, 75, 76, 77, 78,
   80, 81, 82, 83, 84, 85, 86, 87, 88, 89, 90,
   97, 98, 99, 100, 101, 102, 103, 104, 105, 106, 107,
   109, 110, 111, 112, 113, 114, 115, 116, 117, 118, 119, 120, 121, 122]

/-- Modelled from the spec: `ASCII62_CHARSET` of `mom.codec.base62` (§4.1) —
digits, uppercase, then lowercase, in natural ASCII order. -/
def ASCII62_CHARSET : List Nat :=
  (List.range 10).map (· + 48) ++ (List.range 26).map (· + 65) ++
  (List.range 26).map (· + 97)

/-- The shared body of `b58encode_naive` and `b62encode_naive`: big-endian
integer value, base-`B` digit loop, then leading-zero-byte padding with the
charset's zero symbol. -/
def baseEncodeNaive (B : Nat) (cs : List Nat) (raw : Bytes) : Bytes :=
  let n := bytes_to_uint raw
  List.replicate (countLeading (fun w => w == 0) raw) (cs.getD 0 0) ++
    (digitsBE B n).map (fun d => cs.getD d 0)

/-- The `number += _lookup[x] * (B**i)` loop of the naive decoders, iterating
over the reversed text with `i` the running exponent; a missing symbol is a
`KeyError` (`none`). -/
def decodeNumRev (B : Nat) (cs : List Nat) : Bytes → Nat → Option Nat
  | [], _ => some 0
  | c :: rest, i =>
    match ordIn cs c, decodeNumRev B cs rest (i + 1) with
    | some d, some acc => some (d * B ^ i + acc)
    | _, _ => none

/-- The shared body of `b58decode_naive` and `b62decode_naive`: strip
whitespace, fold the digits, convert to bytes (empty for 0), and re-expand
leading zero symbols as zero bytes. -/
def baseDecodeNaive (B : Nat) (cs : List Nat) (encoded : Bytes) :
    Except PyErr Bytes :=
  let s := stripWs encoded
  match decodeNumRev B cs s.reverse 0 with
  | none => .error .keyError
  | some n =>
    let rb := if n ≠ 0 then uint_to_bytes n else []
    let k := countLeading (fun w => w == cs.getD 0 0) s
    .ok (List.replicate k 0 ++ rb)

/-- `b58encode_naive` of `mom/codec/_alt_base.py`. -/
def b58encode_naive : Bytes → Bytes := baseEncodeNaive 58 ASCII58_CHARSET

/-- `b58decode_naive` of `mom/codec/_alt_base.py`. -/
def b58decode_naive : Bytes → Except PyErr Bytes :=
  baseDecodeNaive 58 ASCII58_CHARSET

/-- `b62encode_naive` of `mom/codec/_alt_base.py`. -/
def b62encode_naive : Bytes → Bytes := baseEncodeNaive 62 ASCII62_CHARSET

/-- `b62decode_naive` of `mom/codec/_alt_base.py`. -/
def b62decode_naive : Bytes → Except PyErr Bytes :=
  baseDecodeNaive 62 ASCII62_CHARSET

/-- The raw bytes of the spec's Base62 example vector,
hex `005cc87f4a3fdfe3a2346b6953267ca867282630d3f9b78e64`. -/
def b62VectorRaw : Bytes :=
  [0, 92, 200, 127, 74, 63, 223, 227, 162, 52, 107, 105, 83, 38, 124, 168,
   103, 40, 38, 48, 211, 249, 183, 142, 100]

/-- The expected Base62 text `01041W9weGIezvwKmSO0kaL8BGx4qp64Q8`. -/
def b62VectorText : Bytes :=
  [48, 49, 48, 52, 49, 87, 57, 119, 101, 71, 73, 101, 122, 118, 119, 75,
   109, 83, 79, 48, 107, 97, 76, 56, 66, 71, 120, 52, 113, 112, 54, 52,
   81, 56]


/-- Little-endian positional value of a digit list in base `B`. -/
def polyVal (B : Nat) : List Nat → Nat
  | [] => 0
  | d :: ds => d + B * polyVal B ds

/-- Most-significant-first positional value of a digit list in base `B`. -/
def msbVal (B : Nat) (l : List Nat) : Nat := polyVal B l.reverse

theorem polyVal_append (B : Nat) (xs ys : List Nat) :
    polyVal B (xs ++ ys) = polyVal B xs + B ^ xs.length * polyVal B ys := by
  induction xs with
  | nil => simp [polyVal]
  | cons d t ih => simp [polyVal, ih]; ring

theorem msbVal_nil (B : Nat) : msbVal B [] = 0 := rfl

theorem msbVal_append_singleton (B : Nat) (xs : List Nat) (y : Nat) :
    msbVal B (xs ++ [y]) = B * msbVal B xs + y := by
  simp [msbVal, polyVal]
  ring

theorem msbVal_cons (B : Nat) (c : Nat) (t : List Nat) :
    msbVal B (c :: t) = c * B ^ t.length + msbVal B t := by
  unfold msbVal
  rw [List.reverse_cons, polyVal_append]
  simp [polyVal]
  ring

theorem polyVal_replicate_zero (B k : Nat) :
    polyVal B (List.replicate k 0) = 0 := by
  induction k with
  | zero => rfl
  | succ m ih => simp [List.replicate, polyVal, ih]

theorem polyVal_append_replicate_zero (B : Nat) (xs : List Nat) (k : Nat) :
    polyVal B (xs ++ List.replicate k 0) = polyVal B xs := by
  rw [polyVal_append, polyVal_replicate_zero]
  simp

theorem msbVal_replicate_zero_append (B k : Nat) (l : List Nat) :
    msbVal B (List.replicate k 0 ++ l) = msbVal B l := by
  unfold msbVal
  rw [List.reverse_append, List.reverse_replicate,
    polyVal_append_replicate_zero]

theorem foldl_base (B : Nat) (s : List Nat) :
    ∀ a : Nat, s.foldl (fun x d => x * B + d) a = a * B ^ s.length + msbVal B s := by
  induction s with
  | nil => intro a; simp [msbVal_nil]
  | cons c t ih =>
      intro a
      rw [List.foldl_cons, ih, msbVal_cons]
      simp [List.length_cons]
      ring

theorem msbVal_pos (B : Nat) (hB : 1 ≤ B) (c : Nat) (t : List Nat)
    (hc : c ≠ 0) : msbVal B (c :: t) ≠ 0 := by
  rw [msbVal_cons]
  have h1 : 0 < B ^ t.length := Nat.pos_pow_of_pos _ (by omega)
  have h2 : 0 < c * B ^ t.length := Nat.mul_pos (by omega) h1
  omega

theorem bytes_to_uint_eq_msbVal (s : Bytes) : bytes_to_uint s = msbVal 256 s := by
  show s.foldl (fun x d => x * 256 + d) 0 = _
  rw [foldl_base]
  simp

theorem digitsBE_key (B : Nat) :
    ∀ n m, n = m + 1 → digitsBE B n = digitsF B m (n / B) ++ [n % B] := by
  intro n m hm
  subst hm
  simp [digitsBE, digitsF]

/-- Fuel irrelevance for the digit loop: any fuel at least `n` computes the
canonical digit list. -/
theorem digitsF_eq (B : Nat) (hB : 2 ≤ B) :
    ∀ n, ∀ fuel, n ≤ fuel → digitsF B fuel n = digitsBE B n := by
  intro n
  induction n using Nat.strong_induction_on with
  | _ n ih =>
    intro fuel hfuel
    by_cases h0 : n = 0
    · subst h0
      cases fuel with
      | zero => rfl
      | succ f => simp [digitsF, digitsBE]
    · obtain ⟨f, rfl⟩ : ∃ f, fuel = f + 1 := ⟨fuel - 1, by omega⟩
      have hdiv : n / B < n := Nat.div_lt_self (by omega) (by omega)
      have h1 : digitsF B (f + 1) n = digitsF B f (n / B) ++ [n % B] := by
        simp [digitsF, h0]
      rw [h1, digitsBE_key B n (n - 1) (by omega),
        ih (n / B) hdiv f (by omega), ih (n / B) hdiv (n - 1) (by omega)]

theorem digitsBE_zero (B : Nat) : digitsBE B 0 = [] := rfl

theorem digitsBE_cons (B : Nat) (hB : 2 ≤ B) (n : Nat) (h0 : n ≠ 0) :
    digitsBE B n = digitsBE B (n / B) ++ [n % B] := by
  have hdiv : n / B < n := Nat.div_lt_self (by omega) (by omega)
  rw [digitsBE_key B n (n - 1) (by omega),
    digitsF_eq B hB (n / B) (n - 1) (by omega)]

theorem msbVal_digitsBE (B : Nat) (hB : 2 ≤ B) (n : Nat) :
    msbVal B (digitsBE B n) = n := by
  induction n using Nat.strong_induction_on with
  | _ n ih =>
    by_cases h0 : n = 0
    · subst h0; rfl
    · rw [digitsBE_cons B hB n h0, msbVal_append_singleton,
        ih (n / B) (Nat.div_lt_self (by omega) (by omega))]
      exact Nat.div_add_mod n B

theorem digitsBE_lt (B : Nat) (hB : 2 ≤ B) (n : Nat) :
    ∀ d ∈ digitsBE B n, d < B := by
  induction n using Nat.strong_induction_on with
  | _ n ih =>
    by_cases h0 : n = 0
    · subst h0; intro d hd; simp [digitsBE_zero] at hd
    · rw [digitsBE_cons B hB n h0]
      intro d hd
      rcases List.mem_append.mp hd with h | h
      · exact ih (n / B) (Nat.div_lt_self (by omega) (by omega)) d h
      · simp at h
        subst h
        exact Nat.mod_lt _ (by omega)

theorem digitsBE_ne_nil (B : Nat) (hB : 2 ≤ B) (n : Nat) (h0 : n ≠ 0) :
    digitsBE B n ≠ [] := by
  rw [digitsBE_cons B hB n h0]
  simp

theorem digitsBE_head_ne_zero (B : Nat) (hB : 2 ≤ B) (n : Nat) :
    ∀ d ds, digitsBE B n = d :: ds → d ≠ 0 := by
  induction n using Nat.strong_induction_on with
  | _ n ih =>
    intro d ds hd
    by_cases h0 : n = 0
    · subst h0; simp [digitsBE_zero] at hd
    · rw [digitsBE_cons B hB n h0] at hd
      by_cases hq : n / B = 0
      · rw [hq, digitsBE_zero] at hd
        simp at hd
        have hlt : n < B := by
          by_contra hge
          have h1 : B / B ≤ n / B := Nat.div_le_div_right (by omega)
          rw [Nat.div_self (by omega)] at h1
          omega
        have : n % B = n := Nat.mod_eq_of_lt hlt
        omega
      · obtain ⟨e, es, he⟩ : ∃ e es, digitsBE B (n / B) = e :: es := by
          cases hds : digitsBE B (n / B) with
          | nil => exact absurd hds (digitsBE_ne_nil B hB _ hq)
          | cons e es => exact ⟨e, es, rfl⟩
        rw [he] at hd
        simp at hd
        rw [← hd.1]
        exact ih (n / B) (Nat.div_lt_self (by omega) (by omega)) e es he

/-- Uniqueness of base-`B` representation: the digit loop inverts the
positional value on digit lists with no leading zero. -/
theorem digitsBE_msbVal (B : Nat) (hB : 2 ≤ B) (l : List Nat)
    (hlt : ∀ d ∈ l, d < B) (hhd : ∀ d ds, l = d :: ds → d ≠ 0) :
    digitsBE B (msbVal B l) = l := by
  induction l using List.reverseRecOn with
  | nil => simp [msbVal_nil, digitsBE_zero]
  | append_singleton ys y ihy =>
    rw [msbVal_append_singleton]
    have hy : y < B := hlt y (by simp)
    cases ys with
    | nil =>
      simp [msbVal_nil]
      have hyne : y ≠ 0 := hhd y [] rfl
      rw [digitsBE_cons B hB y hyne, Nat.div_eq_of_lt hy, digitsBE_zero,
        Nat.mod_eq_of_lt hy]
      simp
    | cons c t =>
      have hcne : c ≠ 0 := hhd c (t ++ [y]) rfl
      have hVne : msbVal B (c :: t) ≠ 0 := msbVal_pos B (by omega) c t hcne
      have hne : B * msbVal B (c :: t) + y ≠ 0 := by
        have h1 : 0 < B * msbVal B (c :: t) :=
          Nat.mul_pos (by omega) (Nat.pos_of_ne_zero hVne)
        omega
      rw [digitsBE_cons B hB _ hne]
      have hdiv : (B * msbVal B (c :: t) + y) / B = msbVal B (c :: t) := by
        rw [Nat.mul_add_div (by omega), Nat.div_eq_of_lt hy]
        omega
      have hmod : (B * msbVal B (c :: t) + y) % B = y := by
        rw [Nat.mul_add_mod, Nat.mod_eq_of_lt hy]
      rw [hdiv, hmod,
        ihy (fun d hd => hlt d (by simp at hd ⊢; tauto))
          (fun d ds hds => hhd d (ds ++ [y]) (by rw [hds]; rfl))]

theorem getD_mem (l : List Nat) (d : Nat) (h : d < l.length) :
    l.getD d 0 ∈ l := by
  rw [List.getD_eq_getElem l 0 h]
  exact List.getElem_mem h

theorem ordIn_getD (cs : List Nat) (hnd : cs.Nodup) :
    ∀ d, d < cs.length → ordIn cs (cs.getD d 0) = some d := by
  induction cs with
  | nil => intro d hd; simp at hd
  | cons c t ih =>
    intro d hd
    cases d with
    | zero => simp [ordIn]
    | succ m =>
      have hm : m < t.length := by simpa using hd
      have hmem : t.getD m 0 ∈ t := getD_mem t m hm
      have hne : ¬ c = t.getD m 0 := by
        intro he
        exact (List.nodup_cons.mp hnd).1 (he ▸ hmem)
      have hgd : (c :: t).getD (m + 1) 0 = t.getD m 0 := by
        simp [List.getD_cons_succ]
      rw [hgd]
      simp only [ordIn]
      rw [if_neg hne, ih (List.nodup_cons.mp hnd).2 m hm]
      rfl

theorem getD_inj (cs : List Nat) (hnd : cs.Nodup) (i j : Nat)
    (hi : i < cs.length) (hj : j < cs.length)
    (h : cs.getD i 0 = cs.getD j 0) : i = j := by
  have h1 := ordIn_getD cs hnd i hi
  have h2 := ordIn_getD cs hnd j hj
  rw [h] at h1
  rw [h1] at h2
  exact Option.some.inj h2

theorem ordIn_some_mem (cs : List Nat) (c : Nat) :
    ∀ d, ordIn cs c = some d → c ∈ cs ∧ d < cs.length := by
  induction cs with
  | nil => intro d hd; simp [ordIn] at hd
  | cons e t ih =>
    intro d hd
    by_cases he : e = c
    · subst he
      simp [ordIn] at hd
      refine ⟨List.mem_cons_self _ _, ?_⟩
      simp
      omega
    · simp [ordIn, he] at hd
      obtain ⟨m, hm, hdm⟩ := hd
      obtain ⟨hmem, hlt⟩ := ih m hm
      exact ⟨List.mem_cons_of_mem _ hmem, by simp; omega⟩

theorem stripWs_eq_self (s : Bytes) (h : ∀ c ∈ s, isWs c = false) :
    stripWs s = s := by
  unfold stripWs
  rw [List.filter_eq_self]
  intro a ha
  simp [h a ha]

theorem decodeNumRev_map (B : Nat) (cs : List Nat) (hnd : cs.Nodup) :
    ∀ ds : List Nat, (∀ d ∈ ds, d < cs.length) → ∀ i,
      decodeNumRev B cs (ds.map (fun d => cs.getD d 0)) i =
        some (B ^ i * polyVal B ds) := by
  intro ds
  induction ds with
  | nil => intro h i; simp [decodeNumRev, polyVal]
  | cons d t ih =>
    intro h i
    have hd : d < cs.length := h d (List.mem_cons_self _ _)
    have ht : ∀ e ∈ t, e < cs.length := fun e he =>
      h e (List.mem_cons_of_mem _ he)
    simp only [List.map_cons, decodeNumRev,
      ordIn_getD cs hnd d hd, ih ht (i + 1)]
    congr 1
    simp [polyVal]
    ring

theorem countLeading_nil (p : Nat → Bool) : countLeading p [] = 0 := rfl

theorem countLeading_cons_false (p : Nat → Bool) (c : Nat) (t : Bytes)
    (hc : p c = false) : countLeading p (c :: t) = 0 := by
  simp [countLeading, List.takeWhile_cons, hc]

theorem countLeading_replicate (p : Nat → Bool) (z k : Nat)
    (hz : p z = true) : countLeading p (List.replicate k z) = k := by
  induction k with
  | zero => rfl
  | succ m ih =>
    simp only [List.replicate, countLeading, List.takeWhile_cons, hz] at ih ⊢
    simpa using ih

theorem countLeading_replicate_append (p : Nat → Bool) (z k : Nat)
    (c : Nat) (t : Bytes) (hz : p z = true) (hc : p c = false) :
    countLeading p (List.replicate k z ++ c :: t) = k := by
  induction k with
  | zero => simpa using countLeading_cons_false p c t hc
  | succ m ih =>
    simp only [List.replicate, List.cons_append, countLeading,
      List.takeWhile_cons, hz] at ih ⊢
    simpa using ih

theorem split_leading_zero (x : Bytes) :
    x = List.replicate (countLeading (fun w => w == 0) x) 0 ++
      x.dropWhile (fun w => w == 0) := by
  induction x with
  | nil => rfl
  | cons c t ih =>
    by_cases hc : c = 0
    · subst hc
      simp only [countLeading, List.takeWhile_cons, List.dropWhile_cons] at ih ⊢
      simpa [List.replicate] using ih
    · have hcb : (c == 0) = false := by simp [hc]
      simp [countLeading, List.takeWhile_cons, List.dropWhile_cons, hcb]

theorem dropWhile_head_false (p : Nat → Bool) :
    ∀ x c t, List.dropWhile p x = c :: t → p c = false := by
  intro x
  induction x with
  | nil => intro c t h; simp [List.dropWhile] at h
  | cons e s ih =>
    intro c t h
    by_cases he : p e = true
    · rw [List.dropWhile_cons, if_pos he] at h
      exact ih c t h
    · rw [List.dropWhile_cons, if_neg he] at h
      rw [← (List.cons.inj h).1]
      simpa using he

theorem baseDecodeNaive_eval (B : Nat) (cs : List Nat) (e : Bytes) (n : Nat)
    (hws' : stripWs e = e)
    (hnum : decodeNumRev B cs e.reverse 0 = some n) :
    baseDecodeNaive B cs e = Except.ok
      (List.replicate (countLeading (fun w => w == cs.getD 0 0) e) 0 ++
       (if n ≠ 0 then uint_to_bytes n else [])) := by
  simp only [baseDecodeNaive]
  rw [hws', hnum]

/-- The shared round-trip of the naive variable-base codecs: for any base
`B ≥ 2` with a duplicate-free, whitespace-free charset of size `B`, decoding
the encoding of any byte string returns it unchanged. -/
theorem baseNaive_roundtrip (B : Nat) (cs : List Nat) (hB : 2 ≤ B)
    (hlen : cs.length = B) (hnd : cs.Nodup) (hws : ∀ c ∈ cs, isWs c = false)
    (x : Bytes) (hx : ∀ b ∈ x, b < 256) :
    baseDecodeNaive B cs (baseEncodeNaive B cs x) = Except.ok x := by
  have hlen0 : 0 < cs.length := by omega
  have hsplit := split_leading_zero x
  set k := countLeading (fun w => w == 0) x with hkdef
  set N := bytes_to_uint x with hNdef
  set z0 := cs.getD 0 0 with hz0def
  have hz0mem : z0 ∈ cs := getD_mem cs 0 hlen0
  have henc : baseEncodeNaive B cs x =
      List.replicate k z0 ++ (digitsBE B N).map (fun d => cs.getD d 0) := rfl
  have hdiglt : ∀ d ∈ digitsBE B N, d < cs.length := by
    intro d hd
    have := digitsBE_lt B hB N d hd
    omega
  have hmemE : ∀ c ∈ baseEncodeNaive B cs x, c ∈ cs := by
    rw [henc]
    intro c hc
    rcases List.mem_append.mp hc with h | h
    · rw [List.eq_of_mem_replicate h]
      exact hz0mem
    · obtain ⟨d, hd, rfl⟩ := List.mem_map.mp h
      exact getD_mem cs d (hdiglt d hd)
  have hstrip : stripWs (baseEncodeNaive B cs x) = baseEncodeNaive B cs x :=
    stripWs_eq_self _ (fun c hc => hws c (hmemE c hc))
  have hz0true : (z0 == z0) = true := by simp
  have hrev : (baseEncodeNaive B cs x).reverse =
      ((digitsBE B N).reverse ++ List.replicate k 0).map
        (fun d => cs.getD d 0) := by
    rw [henc, List.reverse_append, List.reverse_replicate, List.map_append]
    congr 1
    · simp
    · simp [List.map_replicate, hz0def]
  have hnum : decodeNumRev B cs (baseEncodeNaive B cs x).reverse 0
      = some N := by
    rw [hrev, decodeNumRev_map B cs hnd _ (by
      intro d hd
      rcases List.mem_append.mp hd with h | h
      · exact hdiglt d (List.mem_reverse.mp h)
      · rw [List.eq_of_mem_replicate h]
        omega) 0]
    rw [pow_zero, one_mul, polyVal_append_replicate_zero]
    exact congrArg some (msbVal_digitsBE B hB N)
  cases hr : x.dropWhile (fun w => w == 0) with
  | nil =>
    rw [hr] at hsplit
    have hN0 : N = 0 := by
      rw [hNdef, bytes_to_uint_eq_msbVal]
      rw [show x = List.replicate k 0 ++ ([] : Bytes) from hsplit,
        msbVal_replicate_zero_append, msbVal_nil]
    have henc0 : baseEncodeNaive B cs x = List.replicate k z0 := by
      rw [henc, hN0, digitsBE_zero]
      simp
    rw [hN0] at hnum
    rw [baseDecodeNaive_eval B cs _ 0 hstrip hnum, henc0, ← hz0def,
      countLeading_replicate (fun w => w == z0) z0 k hz0true]
    have hif : (if (0 : Nat) ≠ 0 then uint_to_bytes 0 else []) = [] := by simp
    rw [hif, List.append_nil, hsplit, List.append_nil]
  | cons c t =>
    rw [hr] at hsplit
    have hc : (c == 0) = false := dropWhile_head_false _ x c t hr
    have hcne : c ≠ 0 := by simpa using hc
    have hsub : ∀ b ∈ c :: t, b < 256 := by
      intro b hb
      apply hx
      rw [hsplit]
      exact List.mem_append_right _ hb
    have hNval : N = msbVal 256 (c :: t) := by
      rw [hNdef, bytes_to_uint_eq_msbVal,
        show x = List.replicate k 0 ++ c :: t from hsplit,
        msbVal_replicate_zero_append]
    have hNne : N ≠ 0 := by
      rw [hNval]
      exact msbVal_pos 256 (by omega) c t hcne
    obtain ⟨d0, dt, hdig⟩ : ∃ d0 dt, digitsBE B N = d0 :: dt := by
      cases hna : digitsBE B N with
      | nil => exact absurd hna (digitsBE_ne_nil B hB N hNne)
      | cons d0 dt => exact ⟨d0, dt, rfl⟩
    have hd0ne : d0 ≠ 0 := digitsBE_head_ne_zero B hB N d0 dt hdig
    have hd0lt : d0 < cs.length := hdiglt d0 (by rw [hdig]; simp)
    have hchne : (cs.getD d0 0 == z0) = false := by
      simp only [beq_eq_false_iff_ne, ne_eq]
      intro he
      exact hd0ne (getD_inj cs hnd d0 0 hd0lt hlen0 he)
    have hcount : countLeading (fun w => w == z0) (baseEncodeNaive B cs x)
        = k := by
      rw [henc, hdig, List.map_cons]
      exact countLeading_replicate_append _ z0 k _ _ hz0true hchne
    have hbytes : uint_to_bytes N = c :: t := by
      unfold uint_to_bytes
      rw [if_neg hNne, hNval]
      exact digitsBE_msbVal 256 (by omega) (c :: t) hsub
        (fun d ds hds => by
          rw [← (List.cons.inj hds).1]
          exact hcne)
    rw [baseDecodeNaive_eval B cs _ N hstrip hnum, ← hz0def, hcount,
      if_pos hNne, hbytes]
    exact congrArg Except.ok hsplit.symm


/-- The most-significant-first list of exactly `k` base-`B` digits of `n`
(with leading zeros), as extracted by the unrolled divisions of
`ipv6_b85encode`. -/
def digitList (B k n : Nat) : List Nat :=
  (List.range k).map (fun i => n / B ^ (k - 1 - i) % B)

theorem digitList_length (B k n : Nat) : (digitList B k n).length = k := by
  simp [digitList]

theorem digitList_lt (B k n : Nat) (hB : 0 < B) :
    ∀ d ∈ digitList B k n, d < B := by
  intro d hd
  obtain ⟨i, _, rfl⟩ := List.mem_map.mp hd
  exact Nat.mod_lt _ hB

theorem digitList_succ (B k n : Nat) :
    digitList B (k + 1) n = digitList B k (n / B) ++ [n % B] := by
  unfold digitList
  rw [List.range_succ, List.map_append]
  congr 1
  · apply List.map_congr_left
    intro i hi
    have hik : i < k := List.mem_range.mp hi
    have he : k + 1 - 1 - i = (k - 1 - i) + 1 := by omega
    rw [he, Nat.div_div_eq_div_mul, pow_succ]
    ring_nf
  · simp

theorem foldl_digitList (B : Nat) (hB : 2 ≤ B) :
    ∀ k n, n < B ^ k →
      (digitList B k n).foldl (fun a d => a * B + d) 0 = n := by
  intro k
  induction k with
  | zero =>
    intro n hn
    rw [pow_zero] at hn
    simp [digitList]
    omega
  | succ m ih =>
    intro n hn
    rw [digitList_succ, List.foldl_append]
    have hdiv : n / B < B ^ m := by
      rw [Nat.div_lt_iff_lt_mul (by omega)]
      calc n < B ^ (m + 1) := hn
        _ = B ^ m * B := pow_succ B m
    rw [ih (n / B) hdiv]
    show n / B * B + n % B = n
    rw [Nat.mul_comm]
    exact Nat.div_add_mod n B

theorem rfc1924_length : RFC1924_CHARS.length = 85 := by decide

theorem rfc1924_nodup : RFC1924_CHARS.Nodup := by decide

/-- The unrolled 20-symbol tuple of `ipv6_b85encode` is the charset image of
the 20-digit base-85 digit list of the value. -/
theorem ipv6_encode_digits (n : Nat) (hn : n < 85 ^ 20) :
    [RFC1924_CHARS.getD (n / 85 ^ 19) 0,
     RFC1924_CHARS.getD (n / 85 ^ 18 % 85) 0,
     RFC1924_CHARS.getD (n / 85 ^ 17 % 85) 0,
     RFC1924_CHARS.getD (n / 85 ^ 16 % 85) 0,
     RFC1924_CHARS.getD (n / 85 ^ 15 % 85) 0,
     RFC1924_CHARS.getD (n / 85 ^ 14 % 85) 0,
     RFC1924_CHARS.getD (n / 85 ^ 13 % 85) 0,
     RFC1924_CHARS.getD (n / 85 ^ 12 % 85) 0,
     RFC1924_CHARS.getD (n / 85 ^ 11 % 85) 0,
     RFC1924_CHARS.getD (n / 85 ^ 10 % 85) 0,
     RFC1924_CHARS.getD (n / 85 ^ 9 % 85) 0,
     RFC1924_CHARS.getD (n / 85 ^ 8 % 85) 0,
     RFC1924_CHARS.getD (n / 85 ^ 7 % 85) 0,
     RFC1924_CHARS.getD (n / 85 ^ 6 % 85) 0,
     RFC1924_CHARS.getD (n / 85 ^ 5 % 85) 0,
     RFC1924_CHARS.getD (n / 85 ^ 4 % 85) 0,
     RFC1924_CHARS.getD (n / 85 ^ 3 % 85) 0,
     RFC1924_CHARS.getD (n / 85 ^ 2 % 85) 0,
     RFC1924_CHARS.getD (n / 85 % 85) 0,
     RFC1924_CHARS.getD (n % 85) 0] =
    (digitList 85 20 n).map (fun d => RFC1924_CHARS.getD d 0) := by
  have hfirst : n / 85 ^ 19 % 85 = n / 85 ^ 19 := by
    apply Nat.mod_eq_of_lt
    rw [Nat.div_lt_iff_lt_mul (by positivity)]
    calc n < 85 ^ 20 := hn
      _ = 85 * 85 ^ 19 := by ring
  have hlist : digitList 85 20 n =
      [n / 85 ^ 19 % 85, n / 85 ^ 18 % 85, n / 85 ^ 17 % 85,
       n / 85 ^ 16 % 85, n / 85 ^ 15 % 85, n / 85 ^ 14 % 85,
       n / 85 ^ 13 % 85, n / 85 ^ 12 % 85, n / 85 ^ 11 % 85,
       n / 85 ^ 10 % 85, n / 85 ^ 9 % 85, n / 85 ^ 8 % 85,
       n / 85 ^ 7 % 85, n / 85 ^ 6 % 85, n / 85 ^ 5 % 85,
       n / 85 ^ 4 % 85, n / 85 ^ 3 % 85, n / 85 ^ 2 % 85,
       n / 85 ^ 1 % 85, n / 85 ^ 0 % 85] := by
    unfold digitList
    rfl
  rw [hlist]
  simp only [List.map_cons, List.map_nil, pow_one, pow_zero, Nat.div_one,
    hfirst]

theorem foldOrds_map (cs : List Nat) (hnd : cs.Nodup) (ds : List Nat)
    (h : ∀ d ∈ ds, d < cs.length) :
    foldOrds (ordIn cs) (ds.map (fun d => cs.getD d 0)) =
      some (ds.foldl (fun a d => a * 85 + d) 0) := by
  suffices hgen : ∀ ds : List Nat, (∀ d ∈ ds, d < cs.length) → ∀ a : Nat,
      List.foldl (fun acc c => acc.bind
        (fun a => (ordIn cs c).map (fun d => a * 85 + d)))
        (some a) (ds.map (fun d => cs.getD d 0)) =
      some (ds.foldl (fun x d => x * 85 + d) a) by
    exact hgen ds h 0
  intro ds
  induction ds with
  | nil => intro h a; rfl
  | cons d t ih =>
    intro h a
    simp only [List.map_cons, List.foldl_cons, Option.bind,
      ordIn_getD cs hnd d (h d (List.mem_cons_self _ _)), Option.map]
    exact ih (fun e he => h e (List.mem_cons_of_mem _ he)) (a * 85 + d)

/-- C5: the variable-base naive codecs invert on every byte sequence —
including the empty sequence and all-zero sequences — with leading 0x00
bytes preserved as leading zero symbols and re-expanded on decode. -/
theorem c5_naive_roundtrip (x : Bytes) (hx : ∀ b ∈ x, b < 256) :
    b58decode_naive (b58encode_naive x) = Except.ok x ∧
    b62decode_naive (b62encode_naive x) = Except.ok x :=
  ⟨baseNaive_roundtrip 58 ASCII58_CHARSET (by omega) (by decide) (by decide)
      (by decide) x hx,
   baseNaive_roundtrip 62 ASCII62_CHARSET (by omega) (by decide) (by decide)
      (by decide) x hx⟩

/-- Witness for C5 at the concrete bytes 00 00 07 ff: two leading zero bytes
survive both round trips. -/
theorem c5_naive_roundtrip_witness :
    (∀ b ∈ [0, 0, 7, 255], b < 256) ∧
    b58decode_naive (b58encode_naive [0, 0, 7, 255]) = Except.ok [0, 0, 7, 255] ∧
    b62decode_naive (b62encode_naive [0, 0, 7, 255]) = Except.ok [0, 0, 7, 255] :=
  ⟨by decide, (c5_naive_roundtrip [0, 0, 7, 255] (by decide)).1,
   (c5_naive_roundtrip [0, 0, 7, 255] (by decide)).2⟩

/-- C8: `ipv6_b85encode` rejects negative values (ValueError) and values above
2^128 − 1 (OverflowError) — the spec's RangeError kind in both cases — and on
every value in range returns exactly 20 symbols, all drawn from the RFC1924
alphabet, with no padding, compaction, prefix or suffix. -/
theorem c8_ipv6_encode_range (v : Int) :
    (v < 0 → ipv6_b85encode v = Except.error PyErr.valueError) ∧
    (v > 2 ^ 128 - 1 → ipv6_b85encode v = Except.error PyErr.overflowError) ∧
    (0 ≤ v → v ≤ 2 ^ 128 - 1 → ∃ s, ipv6_b85encode v = Except.ok s ∧
      s.length = 20 ∧ ∀ c ∈ s, c ∈ RFC1924_CHARS) := by
  refine ⟨?_, ?_, ?_⟩
  · intro h
    simp only [ipv6_b85encode, if_pos h]
  · intro h
    have hpow : (1 : Int) ≤ 2 ^ 128 := by norm_num
    have hneg : ¬ v < 0 := by omega
    simp only [ipv6_b85encode, if_neg hneg, if_pos h]
  · intro h0 hmax
    have hneg : ¬ v < 0 := by omega
    have hover : ¬ v > 2 ^ 128 - 1 := by omega
    have htn : v.toNat < 85 ^ 20 := by
      have h1 : v.toNat ≤ ((2 : Int) ^ 128 - 1).toNat :=
        Int.toNat_le_toNat hmax
      have h2 : ((2 : Int) ^ 128 - 1).toNat = 2 ^ 128 - 1 := by decide
      have h3 : (2 : Nat) ^ 128 - 1 < 85 ^ 20 := by decide
      omega
    have henc : ipv6_b85encode v = Except.ok
        ((digitList 85 20 v.toNat).map (fun d => RFC1924_CHARS.getD d 0)) := by
      simp only [ipv6_b85encode, if_neg hneg, if_neg hover]
      exact congrArg Except.ok (ipv6_encode_digits v.toNat htn)
    refine ⟨_, henc, ?_, ?_⟩
    · rw [List.length_map, digitList_length]
    · intro c hc
      obtain ⟨d, hd, rfl⟩ := List.mem_map.mp hc
      apply getD_mem
      rw [rfc1924_length]
      exact digitList_lt 85 20 _ (by omega) d hd

/-- Witness for C8 at the inputs −1, 2^128 and 0. -/
theorem c8_ipv6_encode_range_witness :
    ipv6_b85encode (-1) = Except.error PyErr.valueError ∧
    ipv6_b85encode (2 ^ 128) = Except.error PyErr.overflowError ∧
    (∃ s, ipv6_b85encode 0 = Except.ok s ∧ s.length = 20 ∧
      ∀ c ∈ s, c ∈ RFC1924_CHARS) :=
  ⟨(c8_ipv6_encode_range (-1)).1 (by decide),
   (c8_ipv6_encode_range (2 ^ 128)).2.1 (by decide),
   (c8_ipv6_encode_range 0).2.2 (by decide) (by decide)⟩

/-- C10: the fixed-width 128-bit codec round-trips on every value in
[0, 2^128 − 1]: the 20 emitted symbols are valid RFC1924 symbols, so the
decoder takes no error path and returns the original value. -/
theorem c10_ipv6_roundtrip (v : Nat) (hv : v ≤ 2 ^ 128 - 1) :
    (ipv6_b85encode (v : Int)).bind ipv6_b85decode = Except.ok v := by
  have hneg : ¬ (v : Int) < 0 := by
    have := Int.natCast_nonneg v
    omega
  have hover : ¬ (v : Int) > 2 ^ 128 - 1 := by
    have h1 : (v : Int) ≤ ((2 ^ 128 - 1 : Nat) : Int) := Int.ofNat_le.mpr hv
    have h2 : ((2 ^ 128 - 1 : Nat) : Int) = 2 ^ 128 - 1 := by norm_num
    omega
  have htn : (v : Int).toNat = v := Int.toNat_natCast v
  have hlt : v < 85 ^ 20 := by
    have h3 : (2 : Nat) ^ 128 - 1 < 85 ^ 20 := by decide
    omega
  have henc : ipv6_b85encode (v : Int) = Except.ok
      ((digitList 85 20 v).map (fun d => RFC1924_CHARS.getD d 0)) := by
    simp only [ipv6_b85encode, if_neg hneg, if_neg hover, htn]
    exact congrArg Except.ok (ipv6_encode_digits v hlt)
  rw [henc]
  show ipv6_b85decode ((digitList 85 20 v).map
    (fun d => RFC1924_CHARS.getD d 0)) = Except.ok v
  have hlen : ((digitList 85 20 v).map
      (fun d => RFC1924_CHARS.getD d 0)).length = 20 := by
    rw [List.length_map, digitList_length]
  have hbound : ∀ d ∈ digitList 85 20 v, d < RFC1924_CHARS.length := by
    rw [rfc1924_length]
    exact digitList_lt 85 20 v (by omega)
  simp only [ipv6_b85decode, hlen, foldOrds_map RFC1924_CHARS rfc1924_nodup
    (digitList 85 20 v) hbound]
  simp only [ne_eq, not_true_eq_false, if_false]
  rw [foldl_digitList 85 (by omega) 20 v hlt]

/-- Witness for C10 at the maximal value 2^128 − 1. -/
theorem c10_ipv6_roundtrip_witness :
    2 ^ 128 - 1 ≤ 2 ^ 128 - 1 ∧
    (ipv6_b85encode ((2 ^ 128 - 1 : Nat) : Int)).bind ipv6_b85decode
      = Except.ok (2 ^ 128 - 1) :=
  ⟨Nat.le_refl _, c10_ipv6_roundtrip (2 ^ 128 - 1) (Nat.le_refl _)⟩

theorem isWs_false_of_ge (c : Nat) (h : 33 ≤ c) : isWs c = false := by
  simp [isWs]
  omega

theorem ascii85_range : ∀ c ∈ ASCII85_CHARS, 33 ≤ c ∧ c ≤ 117 := by decide

theorem checkCompact_no_z (z : Nat) :
    ∀ s : Bytes, ∀ counter, (∀ c ∈ s, c ≠ z) → checkCompact z s counter = true := by
  intro s
  induction s with
  | nil => intro counter h; rfl
  | cons c t ih =>
    intro counter h
    have hc : ¬ c = z := h c (List.mem_cons_self _ _)
    simp only [checkCompact, if_neg hc]
    exact ih (counter + 1) (fun e he => h e (List.mem_cons_of_mem _ he))

theorem expandZ_no_z (z : Nat) :
    ∀ s : Bytes, (∀ c ∈ s, c ≠ z) → expandZ z s = s := by
  intro s
  induction s with
  | nil => intro h; rfl
  | cons c t ih =>
    intro h
    have hc : ¬ c = z := h c (List.mem_cons_self _ _)
    simp only [expandZ, if_neg hc]
    rw [ih (fun e he => h e (List.mem_cons_of_mem _ he))]
    rfl

theorem stripPre_nil (s : Bytes) : stripPre [] s = s := by simp [stripPre]

theorem stripSuf_nil (s : Bytes) : stripSuf [] s = s := by simp [stripSuf]

/-- `b85decode` on a single valid 5-symbol ASCII85 chunk reduces to the 32-bit
range test on its base-85 fold. -/
theorem b85decodeDefault_chunk5 (c0 c1 c2 c3 c4 d0 d1 d2 d3 d4 : Nat)
    (h0 : ordIn ASCII85_CHARS c0 = some d0)
    (h1 : ordIn ASCII85_CHARS c1 = some d1)
    (h2 : ordIn ASCII85_CHARS c2 = some d2)
    (h3 : ordIn ASCII85_CHARS c3 = some d3)
    (h4 : ordIn ASCII85_CHARS c4 = some d4) :
    b85decodeDefault [c0, c1, c2, c3, c4] =
      if ((((d0 * 85 + d1) * 85 + d2) * 85 + d3) * 85 + d4) > 4294967295
      then Except.error PyErr.overflowError
      else Except.ok (pack32 ((((d0 * 85 + d1) * 85 + d2) * 85 + d3) * 85 + d4)) := by
  have hge : ∀ c ∈ [c0, c1, c2, c3, c4], 33 ≤ c ∧ c ≤ 117 := by
    intro c hc
    simp only [List.mem_cons, List.not_mem_nil, or_false] at hc
    rcases hc with rfl | rfl | rfl | rfl | rfl
    · exact ascii85_range c (ordIn_some_mem _ c d0 h0).1
    · exact ascii85_range c (ordIn_some_mem _ c d1 h1).1
    · exact ascii85_range c (ordIn_some_mem _ c d2 h2).1
    · exact ascii85_range c (ordIn_some_mem _ c d3 h3).1
    · exact ascii85_range c (ordIn_some_mem _ c d4 h4).1
  have hnz : ∀ c ∈ [c0, c1, c2, c3, c4], c ≠ 122 := by
    intro c hc
    have := (hge c hc).2
    omega
  have hs : stripWs [c0, c1, c2, c3, c4] = [c0, c1, c2, c3, c4] :=
    stripWs_eq_self _ (fun c hc => isWs_false_of_ge c (hge c hc).1)
  have hchk : checkCompact 122 [c0, c1, c2, c3, c4] 0 = true :=
    checkCompact_no_z 122 _ 0 hnz
  have hexp : expandZ 122 [c0, c1, c2, c3, c4] = [c0, c1, c2, c3, c4] :=
    expandZ_no_z 122 _ hnz
  simp only [b85decodeDefault, b85decode, stripPre_nil, stripSuf_nil, hs,
    hchk, hexp]
  simp only [Bool.true_eq_false, and_false, if_false, if_true,
    List.length_cons, List.length_nil]
  norm_num
  simp only [List.replicate, List.append_nil, decodeChunks, chunkValue,
    h0, h1, h2, h3, h4]
  by_cases hov : ((((d0 * 85 + d1) * 85 + d2) * 85 + d3) * 85 + d4) > 4294967295
  · rw [if_pos hov, if_pos hov]
  · rw [if_neg hov, if_neg hov]

/-- C7: in `b85decode`, a padded 5-symbol chunk whose left-to-right base-85
fold equals exactly 2^32 is rejected with Overflow, while a chunk folding to
exactly 2^32 − 1 is accepted and packed as the big-endian 32-bit group
ff ff ff ff. -/
theorem c7_overflow_boundary :
    (∀ c0 c1 c2 c3 c4 d0 d1 d2 d3 d4 : Nat,
      ordIn ASCII85_CHARS c0 = some d0 →
      ordIn ASCII85_CHARS c1 = some d1 →
      ordIn ASCII85_CHARS c2 = some d2 →
      ordIn ASCII85_CHARS c3 = some d3 →
      ordIn ASCII85_CHARS c4 = some d4 →
      ((((d0 * 85 + d1) * 85 + d2) * 85 + d3) * 85 + d4) = 2 ^ 32 →
      b85decodeDefault [c0, c1, c2, c3, c4]
        = Except.error PyErr.overflowError) ∧
    (∀ c0 c1 c2 c3 c4 d0 d1 d2 d3 d4 : Nat,
      ordIn ASCII85_CHARS c0 = some d0 →
      ordIn ASCII85_CHARS c1 = some d1 →
      ordIn ASCII85_CHARS c2 = some d2 →
      ordIn ASCII85_CHARS c3 = some d3 →
      ordIn ASCII85_CHARS c4 = some d4 →
      ((((d0 * 85 + d1) * 85 + d2) * 85 + d3) * 85 + d4) = 2 ^ 32 - 1 →
      b85decodeDefault [c0, c1, c2, c3, c4]
        = Except.ok [255, 255, 255, 255]) := by
  constructor
  · intro c0 c1 c2 c3 c4 d0 d1 d2 d3 d4 h0 h1 h2 h3 h4 hfold
    rw [b85decodeDefault_chunk5 c0 c1 c2 c3 c4 d0 d1 d2 d3 d4 h0 h1 h2 h3 h4,
      hfold]
    norm_num
  · intro c0 c1 c2 c3 c4 d0 d1 d2 d3 d4 h0 h1 h2 h3 h4 hfold
    rw [b85decodeDefault_chunk5 c0 c1 c2 c3 c4 d0 d1 d2 d3 d4 h0 h1 h2 h3 h4,
      hfold]
    norm_num [pack32]

/-- Witness for C7: the chunk `s8W-"` folds to exactly 2^32 and is rejected
with Overflow; the chunk `s8W-!` folds to 2^32 − 1 and decodes to the four
bytes ff ff ff ff. -/
theorem c7_overflow_boundary_witness :
    b85decodeDefault [115, 56, 87, 45, 34] = Except.error PyErr.overflowError ∧
    b85decodeDefault [115, 56, 87, 45, 33] = Except.ok [255, 255, 255, 255] :=
  ⟨c7_overflow_boundary.1 115 56 87 45 34 82 23 54 12 1 (by decide) (by decide)
      (by decide) (by decide) (by decide) (by decide),
   c7_overflow_boundary.2 115 56 87 45 33 82 23 54 12 0 (by decide) (by decide)
      (by decide) (by decide) (by decide) (by decide)⟩

theorem expandZ_cons_z (z : Nat) (cs : Bytes) :
    expandZ z (z :: cs) = [33, 33, 33, 33, 33] ++ expandZ z cs := by
  simp [expandZ]

theorem expandZ_cons_ne (z c : Nat) (cs : Bytes) (hc : ¬ c = z) :
    expandZ z (c :: cs) = [c] ++ expandZ z cs := by
  simp [expandZ, hc]

/-- Characterisation of `_check_compact_char_occurrence`: starting from a
given counter, the scan succeeds exactly when, for each compaction char in
the text, the counter plus the expanded length of the text before it is a
multiple of 5. -/
theorem checkCompact_iff (z : Nat) :
    ∀ (t : Bytes) (counter : Nat),
      checkCompact z t counter = true ↔
        ∀ u v : Bytes, t = u ++ z :: v →
          (counter + (expandZ z u).length) % 5 = 0 := by
  intro t
  induction t with
  | nil =>
    intro counter
    constructor
    · intro _ u v h
      exact absurd h (by cases u <;> simp)
    · intro _
      rfl
  | cons c t' ih =>
    intro counter
    by_cases hc : c = z
    · subst hc
      simp only [checkCompact, eq_self_iff_true, if_true, Bool.and_eq_true,
        decide_eq_true_eq]
      rw [ih 0]
      constructor
      · rintro ⟨hcnt, hrest⟩ u v huv
        cases u with
        | nil =>
          simp [expandZ]
          exact hcnt
        | cons a u' =>
          rw [List.cons_append] at huv
          have ha : c = a := (List.cons.inj huv).1
          have ht' : t' = u' ++ c :: v := (List.cons.inj huv).2
          have he := hrest u' v ht'
          rw [← ha, expandZ_cons_z]
          simp only [List.length_append, List.length_cons, List.length_nil]
          omega
      · intro hall
        constructor
        · have h2 := hall [] t' rfl
          simpa [expandZ] using h2
        · intro u' v ht'
          have h1 := hall (c :: u') v (by rw [ht', List.cons_append])
          have h2 := hall [] t' rfl
          rw [expandZ_cons_z] at h1
          simp only [List.length_append, List.length_cons,
            List.length_nil] at h1
          simp only [expandZ, List.length_nil] at h2
          simp only [zero_add]
          omega
    · simp only [checkCompact, if_neg hc]
      rw [ih (counter + 1)]
      constructor
      · intro hall u v huv
        cases u with
        | nil =>
          rw [List.nil_append] at huv
          exact absurd (List.cons.inj huv).1 hc
        | cons a u' =>
          rw [List.cons_append] at huv
          have ha : c = a := (List.cons.inj huv).1
          have ht' : t' = u' ++ z :: v := (List.cons.inj huv).2
          have he := hall u' v ht'
          rw [← ha, expandZ_cons_ne z c u' hc]
          simp only [List.length_append, List.length_cons, List.length_nil]
          omega
      · intro hall u' v ht'
        have h1 := hall (c :: u') v (by rw [ht', List.cons_append])
        rw [expandZ_cons_ne z c u' hc] at h1
        simp only [List.length_append, List.length_cons,
          List.length_nil] at h1
        omega

theorem checkCompact_iff_zAligned (z : Nat) (t : Bytes) :
    checkCompact z t 0 = true ↔ zAligned z t := by
  rw [checkCompact_iff]
  unfold zAligned
  constructor <;> intro h u v huv <;> have hx := h u v huv <;> simpa using hx

/-- Every outcome of one chunk step: either the Overflow error, or a success
in which all five symbols were valid. -/
theorem chunkValue_result (ords : Nat → Option Nat) (v w x y z : Nat) :
    chunkValue ords v w x y z = Except.error PyErr.overflowError ∨
    (∃ u, chunkValue ords v w x y z = Except.ok u ∧
      (ords v).isSome ∧ (ords w).isSome ∧ (ords x).isSome ∧
      (ords y).isSome ∧ (ords z).isSome) := by
  rcases hv : ords v with _ | a
  · left; simp [chunkValue, hv]
  · rcases hw : ords w with _ | b
    · left; simp [chunkValue, hv, hw]
    · rcases hx : ords x with _ | c
      · left; simp [chunkValue, hv, hw, hx]
      · rcases hy : ords y with _ | d
        · left; simp [chunkValue, hv, hw, hx, hy]
        · rcases hz : ords z with _ | e
          · left; simp [chunkValue, hv, hw, hx, hy, hz]
          · simp only [chunkValue, hv, hw, hx, hy, hz]
            by_cases hov :
                ((((a * 85 + b) * 85 + c) * 85 + d) * 85 + e) > 4294967295
            · left; rw [if_pos hov]
            · right
              exact ⟨_, by rw [if_neg hov], by simp [hv], by simp [hw],
                by simp [hx], by simp [hy], by simp [hz]⟩

/-- Every outcome of the chunk loop on a text whose length is a multiple of
5: either the Overflow error, or a success in which every symbol was valid. -/
theorem decodeChunks_result (ords : Nat → Option Nat) :
    ∀ n (s : Bytes), s.length = n → s.length % 5 = 0 →
      decodeChunks ords s = Except.error PyErr.overflowError ∨
      (∃ bs, decodeChunks ords s = Except.ok bs ∧
        ∀ c ∈ s, (ords c).isSome) := by
  intro n
  induction n using Nat.strong_induction_on with
  | _ n ih =>
    intro s hlen hmod
    match s with
    | [] =>
      right
      exact ⟨[], rfl, by simp⟩
    | [a] => simp at hmod
    | [a, b] => simp at hmod
    | [a, b, c] => simp at hmod
    | [a, b, c, d] => simp at hmod
    | a :: b :: c :: d :: e :: rest =>
      have hrlen : rest.length % 5 = 0 := by
        simp only [List.length_cons] at hmod
        omega
      have hrlt : rest.length < n := by
        simp only [List.length_cons] at hlen
        omega
      rcases chunkValue_result ords a b c d e with hcv | ⟨u, hcv, hva, hvb, hvc, hvd, hve⟩
      · left
        simp only [decodeChunks, hcv]
      · rcases ih rest.length hrlt rest rfl hrlen with hdc | ⟨bs, hdc, hval⟩
        · left
          simp only [decodeChunks, hcv, hdc]
        · right
          refine ⟨pack32 u ++ bs, by simp only [decodeChunks, hcv, hdc], ?_⟩
          intro i hi
          simp only [List.mem_cons] at hi
          rcases hi with rfl | rfl | rfl | rfl | rfl | hi
          · exact hva
          · exact hvb
          · exact hvc
          · exact hvd
          · exact hve
          · exact hval i hi

/-- C2 amended: with compaction enabled, `b85decode` fails with
MalformedCompaction (ValueError) exactly when the whitespace-stripped text
violates the alignment rule — some compaction char is not at a multiple-of-5
position once the compaction chars before it are expanded. -/
theorem c2_compaction_rule (s : Bytes) :
    b85decodeDefault s = Except.error PyErr.valueError ↔
      ¬ zAligned 122 (stripWs s) := by
  rw [← checkCompact_iff_zAligned]
  by_cases hchk : checkCompact 122 (stripWs s) 0 = true
  · have hL : ¬ b85decodeDefault s = Except.error PyErr.valueError := by
      simp only [b85decodeDefault, b85decode, stripPre_nil, stripSuf_nil,
        hchk, Bool.true_eq_false, and_false, if_false, eq_self_iff_true,
        if_true]
      set s3 := expandZ 122 (stripWs s) with hs3
      set padSize := if s3.length % 5 = 0 then 0 else 5 - s3.length % 5
        with hps
      have hmod : (s3 ++
          List.replicate padSize (ASCII85_CHARS.getD 84 0)).length % 5 = 0 := by
        rw [List.length_append, List.length_replicate]
        by_cases h : s3.length % 5 = 0
        · rw [hps, if_pos h]
          omega
        · rw [hps, if_neg h]
          omega
      rcases decodeChunks_result (ordIn ASCII85_CHARS) _ _ rfl hmod with
        hdc | ⟨bs, hdc, _⟩
      · rw [hdc]
        simp
      · rw [hdc]
        simp
    constructor
    · intro h
      exact absurd h hL
    · intro h
      exact absurd hchk h
  · have hfalse : checkCompact 122 (stripWs s) 0 = false := by
      simpa using hchk
    have hL : b85decodeDefault s = Except.error PyErr.valueError := by
      simp only [b85decodeDefault, b85decode, stripPre_nil, stripSuf_nil,
        hfalse]
      simp
    exact ⟨fun _ => hchk, fun _ => hL⟩

/-- C6 amended: any `b85decode` input that, after whitespace/prefix/suffix
removal passes the compaction check but whose expansion contains a symbol
outside the ASCII85 alphabet fails with OverflowError — the same kind as a
32-bit overflow; invalid symbols are not distinguished by a separate kind. -/
theorem c6_invalid_symbol_overflow (s pre suf : Bytes)
    (hchk : checkCompact 122 (stripSuf suf (stripPre pre (stripWs s))) 0
      = true)
    (hinv : ∃ c ∈ expandZ 122 (stripSuf suf (stripPre pre (stripWs s))),
      ordIn ASCII85_CHARS c = none) :
    b85decode s pre suf (ordIn ASCII85_CHARS) ASCII85_CHARS true 122
      = Except.error PyErr.overflowError := by
  simp only [b85decode, hchk, Bool.true_eq_false, and_false, if_false,
    eq_self_iff_true, if_true]
  set s3 := expandZ 122 (stripSuf suf (stripPre pre (stripWs s))) with hs3
  set padSize := if s3.length % 5 = 0 then 0 else 5 - s3.length % 5 with hps
  have hmod : (s3 ++
      List.replicate padSize (ASCII85_CHARS.getD 84 0)).length % 5 = 0 := by
    rw [List.length_append, List.length_replicate]
    by_cases h : s3.length % 5 = 0
    · rw [hps, if_pos h]
      omega
    · rw [hps, if_neg h]
      omega
  rcases decodeChunks_result (ordIn ASCII85_CHARS) _ _ rfl hmod with
    hdc | ⟨bs, hdc, hval⟩
  · rw [hdc]
  · obtain ⟨c, hcmem, hcnone⟩ := hinv
    have hv := hval c (List.mem_append_left _ hcmem)
    rw [hcnone] at hv
    simp at hv

/-- Witness for C6: `vvvvv` passes the compaction check, contains the
out-of-alphabet symbol `v` (118), and decodes to the Overflow error. -/
theorem c6_witness :
    checkCompact 122 (stripSuf [] (stripPre [] (stripWs
      [118, 118, 118, 118, 118]))) 0 = true ∧
    (∃ c ∈ expandZ 122 (stripSuf [] (stripPre [] (stripWs
      [118, 118, 118, 118, 118]))), ordIn ASCII85_CHARS c = none) ∧
    b85decode [118, 118, 118, 118, 118] [] [] (ordIn ASCII85_CHARS)
      ASCII85_CHARS true 122 = Except.error PyErr.overflowError :=
  ⟨by decide, by decide,
   c6_invalid_symbol_overflow [118, 118, 118, 118, 118] [] []
     (by decide) (by decide)⟩

/-- The Base62 text produced for the example vector by the spec's natural
ASCII-order charset: it has `l` (108) at index 20 where the claimed text has
`k` (107), and is identical elsewhere. -/
def b62VectorTextL : Bytes :=
  [48, 49, 48, 52, 49, 87, 57, 119, 101, 71, 73, 101, 122, 118, 119, 75,
   109, 83, 79, 48, 108, 97, 76, 56, 66, 71, 120, 52, 113, 112, 54, 52,
   81, 56]

/-- C1: evaluation of the code at the failing input. Encoding the five bytes
03 1c 84 b1 00 with the default ASCII85 configuration produces the text
`"z!`: the textual replacement of `!!!!!` by `z` matched across the boundary
between the first 5-symbol group and the truncated final group, so the
compaction char does not stand for a whole zero group. Decoding that very
output fails with MalformedCompaction (ValueError) instead of returning the
original bytes, violating the round-trip law. -/
theorem c1_compaction_crossing_bug :
    b85encodeDefault [3, 28, 132, 177, 0] = [34, 122, 33] ∧
    b85decodeDefault [34, 122, 33] = Except.error PyErr.valueError := by
  exact ⟨by decide, by decide⟩

/-- C2 counterexample: the input `zz` has a compaction char at index 1, which
is not a multiple of 5, yet `b85decode` accepts it and returns eight zero
bytes — the claim's absolute-position reading of the rule is false. -/
theorem c2_counterexample :
    b85decodeDefault [122, 122] = Except.ok [0, 0, 0, 0, 0, 0, 0, 0] ∧
    List.getD [122, 122] 1 0 = 122 ∧ 1 % 5 ≠ 0 := by
  exact ⟨by decide, by decide, by decide⟩

/-- C3: evaluation of the code at the failing inputs. On twenty `~` symbols
`ipv6_b85decode` returns the full fold 85^20 − 1, which exceeds 2^128 − 1,
with no Overflow error; on twenty `,` symbols (not in the RFC1924 alphabet)
it raises the dictionary's raw KeyError. Its naive counterpart
`ipv6_b85decode_naive` raises OverflowError in both situations, as the claim
demands. -/
theorem c3_ipv6_decode_missing_checks :
    ipv6_b85decode (List.replicate 20 126) = Except.ok (85 ^ 20 - 1) ∧
    2 ^ 128 - 1 < 85 ^ 20 - 1 ∧
    ipv6_b85decode_naive (List.replicate 20 126)
      = Except.error PyErr.overflowError ∧
    ipv6_b85decode (List.replicate 20 44) = Except.error PyErr.keyError ∧
    ipv6_b85decode_naive (List.replicate 20 44)
      = Except.error PyErr.overflowError := by
  exact ⟨by decide, by decide, by decide, by decide, by decide⟩

/-- C4: evaluation of the code at the failing input. A 21-character input
holding twenty `0` symbols and one newline is rejected by `ipv6_b85decode`
with the length ValueError — the function never strips whitespace — while
`ipv6_b85decode_naive` strips the newline and decodes it to 0. The 19- and
21-symbol LengthError part of the claim does hold. -/
theorem c4_ipv6_decode_no_whitespace_strip :
    ipv6_b85decode (List.replicate 10 48 ++ 10 :: List.replicate 10 48)
      = Except.error PyErr.valueError ∧
    ipv6_b85decode_naive (List.replicate 10 48 ++ 10 :: List.replicate 10 48)
      = Except.ok 0 ∧
    ipv6_b85decode (List.replicate 19 48) = Except.error PyErr.valueError ∧
    ipv6_b85decode (List.replicate 21 48) = Except.error PyErr.valueError ∧
    ipv6_b85decode_naive (List.replicate 19 48)
      = Except.error PyErr.valueError := by
  exact ⟨by decide, by decide, by decide, by decide, by decide⟩

/-- C6 counterexample: `v` (118) lies outside the ASCII85 alphabet, yet
decoding `vvvvv` fails with OverflowError — the same error kind as a genuine
32-bit overflow (`s8W-"`) — not with a distinct InvalidSymbol kind. -/
theorem c6_counterexample :
    ordIn ASCII85_CHARS 118 = none ∧
    b85decodeDefault [118, 118, 118, 118, 118]
      = Except.error PyErr.overflowError ∧
    b85decodeDefault [115, 56, 87, 45, 34]
      = Except.error PyErr.overflowError := by
  exact ⟨by decide, by decide, by decide⟩

/-- C9 counterexample: under the spec's natural-ASCII Base62 charset the
encoding of the example bytes differs from the claimed text at index 20
(`l` = 108 instead of `k` = 107). -/
theorem c9_counterexample :
    b62encode_naive b62VectorRaw ≠ b62VectorText ∧
    List.getD (b62encode_naive b62VectorRaw) 20 0 = 108 ∧
    List.getD b62VectorText 20 0 = 107 := by
  exact ⟨by decide, by decide, by decide⟩

/-- C9 amended: with the spec's natural-ASCII charset, encoding the example
bytes yields `01041W9weGIezvwKmSO0laL8BGx4qp64Q8` (the claimed text with `l`
at index 20), and decoding any text that whitespace-strips to it — with or
without embedded whitespace — returns exactly the original bytes. -/
theorem c9_vector_amended :
    b62encode_naive b62VectorRaw = b62VectorTextL ∧
    ∀ s : Bytes, stripWs s = b62VectorTextL →
      b62decode_naive s = Except.ok b62VectorRaw := by
  constructor
  · decide
  · intro s hs
    show baseDecodeNaive 62 ASCII62_CHARSET s = Except.ok b62VectorRaw
    unfold baseDecodeNaive
    rw [show stripWs s = b62VectorTextL from hs]
    decide

/-- Witness for C9: the whitespace-ridden variant of the amended text from the
repository's own test layout strips to the amended text and decodes to the
original bytes. -/
theorem c9_vector_witness :
    stripWs (10 :: List.take 18 b62VectorTextL ++ 10 ::
      List.drop 18 b62VectorTextL ++ [10]) = b62VectorTextL ∧
    b62decode_naive (10 :: List.take 18 b62VectorTextL ++ 10 ::
      List.drop 18 b62VectorTextL ++ [10]) = Except.ok b62VectorRaw := by
  exact ⟨by decide, c9_vector_amended.2 _ (by decide)⟩

end Mom
